import Mathlib

/-!
Verification development for the hyperfixi template scanner
(packages/hyperfixi-python/hyperfixi/scanner.py).

The scanner is embedded shallowly: Python strings become Lean `String`
(lists of characters), Python sets of strings become `Finset String`,
regular-expression searches become executable Lean matchers over
`List Char`, and the filesystem is passed explicitly as a record of
functions.  Character classes are modelled at ASCII granularity, which
covers every pattern and vocabulary word in the source.
-/

namespace Hyperfixi

/-- Usage information detected from a single file: field-for-field model of
the `FileUsage` dataclass in scanner.py. -/
structure FileUsage where
  commands : Finset String
  blocks : Finset String
  positional : Bool
deriving DecidableEq

/-- Model of `FileUsage()` built with all defaults. -/
def FileUsage.empty : FileUsage := ⟨∅, ∅, false⟩

/-- Model of `FileUsage.__bool__`: truthiness of either set or of the flag. -/
def FileUsage.toBool (u : FileUsage) : Bool :=
  u.commands.card != 0 || u.blocks.card != 0 || u.positional

/-- Value-level reading of `FileUsage.merge`: the merged usage that the
in-place update leaves in the receiver. -/
def FileUsage.merge (a b : FileUsage) : FileUsage :=
  ⟨a.commands ∪ b.commands, a.blocks ∪ b.blocks, a.positional || b.positional⟩

/-- Model of Python `str.lower()` on a string. -/
def strLower (s : String) : String := String.mk (s.data.map Char.toLower)

/-- ASCII reading of the regex class `\w` (word character). -/
def isWordChar (c : Char) : Bool := c.isAlpha || c.isDigit || c == '_'

/-- ASCII reading of the regex class `\d`. -/
def isDigitChar (c : Char) : Bool := c.isDigit

/-- ASCII reading of the regex class `\s` (Python string whitespace). -/
def isSpaceChar (c : Char) : Bool :=
  c == ' ' || c == '\t' || c == '\n' || c == '\r' || c == '\x0b' || c == '\x0c'

/-- Case-insensitive literal consumption: the remainder of the input after an
initial segment matching the keyword up to letter case, when there is one. -/
def dropCI : List Char → List Char → Option (List Char)
  | [], s => some s
  | _ :: _, [] => none
  | k :: ks, c :: cs =>
    if Char.toLower c == Char.toLower k then dropCI ks cs else none

/-- Word-boundary test after a match: end of input or a non-word character. -/
def notWordStart : List Char → Bool
  | [] => true
  | c :: _ => !isWordChar c

/-- Regex search driver: the matcher is tried at every suffix, and the Bool
argument records whether the current position is at a word boundary (start of
input, or right after a non-word character).  This is sound for the patterns
below, which all begin with a word boundary followed by a word character. -/
def searchFrom (m : List Char → Bool) : Bool → List Char → Bool
  | _, [] => false
  | b, c :: cs => (b && m (c :: cs)) || searchFrom m (!isWordChar c) cs

/-- Search for a word-bounded, case-insensitive occurrence of a keyword: the
model of `re.search` for a pattern of shape `\bkw\b` with `re.IGNORECASE`. -/
def hasWordCI (kw : String) (s : String) : Bool :=
  searchFrom
    (fun suf =>
      match dropCI kw.data suf with
      | some rest => notWordStart rest
      | none => false)
    true s.data

/-- The alternatives of `COMMAND_PATTERN` in scanner.py, in source order.
Every alternative is a whole word and the pattern is bracketed by `\b`, so a
`finditer` match is exactly a word-bounded occurrence of one alternative. -/
def COMMAND_LIST : List String :=
  ["toggle", "add", "remove", "removeClass", "show", "hide", "set", "get", "put",
   "append", "take", "increment", "decrement", "log", "send", "trigger", "wait",
   "transition", "go", "call", "focus", "blur", "return"]

/-- Model of the count alternation `(\d+|:\w+|\$\w+|[\w.]+)` applied to a
whole whitespace-delimited token. -/
def isCount (l : List Char) : Bool :=
  (!l.isEmpty && l.all isDigitChar)
  || (match l with
      | c :: t => c == ':' && !t.isEmpty && t.all isWordChar
      | [] => false)
  || (match l with
      | c :: t => c == '$' && !t.isEmpty && t.all isWordChar
      | [] => false)
  || (!l.isEmpty && l.all (fun c => isWordChar c || c == '.'))

/-- Tail of the repeat pattern after the second whitespace run: `times?`
followed by a word boundary, case-insensitively. -/
def isTimeTail (r : List Char) : Bool :=
  (match dropCI "times".data r with
   | some t => notWordStart t
   | none => false)
  || (match dropCI "time".data r with
     | some t => notWordStart t
     | none => false)

/-- Matcher for the part of the repeat pattern after the keyword `repeat`:
`\s+(\d+|:\w+|\$\w+|[\w.]+)\s+times?\b`.  No count alternative can contain a
whitespace character, so the greedy span decomposition used here is the only
decomposition a backtracking engine could find; the equivalence with the
declarative phrase shape is proved below. -/
def repeatTail (r : List Char) : Bool :=
  let sp1 := r.takeWhile isSpaceChar
  let r1 := r.dropWhile isSpaceChar
  let tok := r1.takeWhile (fun c => !isSpaceChar c)
  let r2 := r1.dropWhile (fun c => !isSpaceChar c)
  let sp2 := r2.takeWhile isSpaceChar
  let r3 := r2.dropWhile isSpaceChar
  !sp1.isEmpty && isCount tok && !sp2.isEmpty && isTimeTail r3

/-- Model of `re.search` for the `repeat` entry of `BLOCK_PATTERNS`. -/
def repeatSearch (s : String) : Bool :=
  searchFrom
    (fun suf =>
      match dropCI "repeat".data suf with
      | some r => repeatTail r
      | none => false)
    true s.data

/-- Model of `re.search` for the `for` entry of `BLOCK_PATTERNS`:
`\bfor\s+(each|every)\b` with `re.IGNORECASE`. -/
def forSearch (s : String) : Bool :=
  searchFrom
    (fun suf =>
      match dropCI "for".data suf with
      | some r =>
        let sp := r.takeWhile isSpaceChar
        let r1 := r.dropWhile isSpaceChar
        !sp.isEmpty &&
          ((match dropCI "each".data r1 with
            | some t => notWordStart t
            | none => false)
           || (match dropCI "every".data r1 with
              | some t => notWordStart t
              | none => false))
      | none => false)
    true s.data

/-- Model of the `BLOCK_PATTERNS` table in source order: each block name
paired with the search predicate of its regex. -/
def BLOCK_PATTERNS : List (String × (String → Bool)) :=
  [("if", fun s => hasWordCI "if" s),
   ("unless", fun s => hasWordCI "unless" s),
   ("repeat", fun s => repeatSearch s),
   ("for", fun s => forSearch s),
   ("while", fun s => hasWordCI "while" s),
   ("fetch", fun s => hasWordCI "fetch" s),
   ("async", fun s => hasWordCI "async" s)]

/-- The alternatives of `POSITIONAL_PATTERN` in scanner.py. -/
def POSITIONAL_LIST : List String :=
  ["first", "last", "next", "previous", "closest", "parent"]

/-- Model of `Scanner.analyze_script`: the command pass (each matched
alternative is lower-cased into the command set), the block pass with the
unless-to-if canonicalisation, and the positional pass. -/
def analyze_script (script : String) : FileUsage :=
  { commands := ((COMMAND_LIST.filter (fun kw => hasWordCI kw script)).map
      (fun kw => strLower kw)).toFinset
    blocks := ((BLOCK_PATTERNS.filter (fun bp => bp.2 script)).map
      (fun bp => if bp.1 = "unless" then "if" else bp.1)).toFinset
    positional := POSITIONAL_LIST.any (fun kw => hasWordCI kw script) }

/-! Extraction: one executable matcher per entry of `HYPERSCRIPT_PATTERNS`.
Each matcher is tried at a position and returns the group-1 capture together
with the rest of the input after the whole match. -/

/-- Case-sensitive literal consumption. -/
def dropLit : List Char → List Char → Option (List Char)
  | [], s => some s
  | _ :: _, [] => none
  | l :: ls, c :: cs => if c == l then dropLit ls cs else none

/-- Capture all characters up to the first occurrence of the closing
character, consuming it: a `[^q]*` capture group followed by the literal
closing character; fails when the closing character never occurs. -/
def captureTo (q : Char) : List Char → Option (List Char × List Char)
  | [] => none
  | c :: cs =>
    if c == q then some ([], cs)
    else (captureTo q cs).map (fun p => (c :: p.1, p.2))

def matchAttrDq (s : List Char) : Option (List Char × List Char) :=
  (dropLit "_=\x22".data s).bind (captureTo '\x22')

def matchAttrSq (s : List Char) : Option (List Char × List Char) :=
  (dropLit "_=\x27".data s).bind (captureTo '\x27')

def matchAttrBt (s : List Char) : Option (List Char × List Char) :=
  (dropLit "_=\x60".data s).bind (captureTo '\x60')

/-- JSX template-literal attribute: `_={` backtick, a non-empty capture, then
backtick `}`. -/
def matchJsxTpl (s : List Char) : Option (List Char × List Char) :=
  (dropLit "_=\x7b\x60".data s).bind (fun r =>
    (captureTo '\x60' r).bind (fun p =>
      if p.1.isEmpty then none
      else
        match p.2 with
        | '\x7d' :: rest => some (p.1, rest)
        | _ => none))

def isQuoteChar (c : Char) : Bool := c == '\x27' || c == '\x22'

/-- Capture all characters that are neither kind of quote, consuming the
closing quote (the source pattern accepts either quote on either side). -/
def captureToQuote : List Char → Option (List Char × List Char)
  | [] => none
  | c :: cs =>
    if isQuoteChar c then some ([], cs)
    else (captureToQuote cs).map (fun p => (c :: p.1, p.2))

/-- JSX string attribute: `_={` quote, non-empty capture, quote `}`. -/
def matchJsxStr (s : List Char) : Option (List Char × List Char) :=
  (dropLit "_=\x7b".data s).bind (fun r =>
    match r with
    | q :: r2 =>
      if isQuoteChar q then
        (captureToQuote r2).bind (fun p =>
          if p.1.isEmpty then none
          else
            match p.2 with
            | '\x7d' :: rest => some (p.1, rest)
            | _ => none)
      else none
    | [] => none)

def matchDataHsDq (s : List Char) : Option (List Char × List Char) :=
  (dropLit "data-hs=\x22".data s).bind (captureTo '\x22')

def matchDataHsSq (s : List Char) : Option (List Char × List Char) :=
  (dropLit "data-hs=\x27".data s).bind (captureTo '\x27')

def dropSpaces (s : List Char) : List Char := s.dropWhile isSpaceChar

/-- Django tag of shape brace-percent, optional spaces, a tag word, optional
spaces, percent-brace; returns the rest of the input after the tag. -/
def matchTagForm (word : List Char) (s : List Char) : Option (List Char) :=
  (dropLit "\x7b%".data s).bind (fun r =>
    (dropLit word (dropSpaces r)).bind (fun r2 =>
      dropLit "%\x7d".data (dropSpaces r2)))

def matchHsClose (s : List Char) : Option (List Char) :=
  matchTagForm "endhs".data s

/-- Shortest capture before a closing construct: a lazy `(.*?)` capture under
`re.DOTALL` followed by the closing pattern. -/
def lazyCapture (close : List Char → Option (List Char)) :
    List Char → Option (List Char × List Char)
  | [] =>
    match close [] with
    | some rest => some ([], rest)
    | none => none
  | c :: cs =>
    match close (c :: cs) with
    | some rest => some ([], rest)
    | none => (lazyCapture close cs).map (fun p => (c :: p.1, p.2))

/-- The paired `hs` ... `endhs` Django block tag. -/
def matchHsBlock (s : List Char) : Option (List Char × List Char) :=
  (matchTagForm "hs".data s).bind (lazyCapture matchHsClose)

/-- Simple Django tag with a quoted non-empty argument: brace-percent,
optional spaces, tag word, mandatory whitespace, quoted capture, optional
spaces, percent-brace. -/
def matchSimpleTag (word : List Char) (q : Char) (s : List Char) :
    Option (List Char × List Char) :=
  (dropLit "\x7b%".data s).bind (fun r =>
    (dropLit word (dropSpaces r)).bind (fun r2 =>
      match r2 with
      | c :: rest =>
        if isSpaceChar c then
          match dropSpaces rest with
          | q2 :: r3 =>
            if q2 == q then
              (captureTo q r3).bind (fun p =>
                if p.1.isEmpty then none
                else (dropLit "%\x7d".data (dropSpaces p.2)).map
                  (fun rest2 => (p.1, rest2)))
            else none
          | [] => none
        else none
      | [] => none))

/-- Does the attribute region contain `type=` with an optionally quoted
`text/hyperscript` value, case-insensitively, starting at this position? -/
def matchTypeAt (s : List Char) : Bool :=
  match dropCI "type=".data s with
  | some r =>
    let r2 :=
      match r with
      | q :: rest => if isQuoteChar q then rest else q :: rest
      | [] => []
    (dropCI "text/hyperscript".data r2).isSome
  | none => false

def hasTypeHs : List Char → Bool
  | [] => false
  | c :: cs => matchTypeAt (c :: cs) || hasTypeHs cs

def matchScriptClose (s : List Char) : Option (List Char) :=
  dropCI "</script>".data s

/-- A script element whose type attribute is `text/hyperscript`: the literal
`<script`, the attribute region up to the first `>` (which must mention the
hyperscript type), then a lazy capture up to `</script>`, case-insensitively. -/
def matchScriptTag (s : List Char) : Option (List Char × List Char) :=
  (dropCI "<script".data s).bind (fun r =>
    let attrs := r.takeWhile (fun c => c != '>')
    match r.dropWhile (fun c => c != '>') with
    | _ :: r2 => if hasTypeHs attrs then lazyCapture matchScriptClose r2 else none
    | [] => none)

/-- The extraction patterns of `HYPERSCRIPT_PATTERNS`, in source order. -/
def HYPERSCRIPT_PATTERNS : List (List Char → Option (List Char × List Char)) :=
  [matchAttrDq, matchAttrSq, matchAttrBt, matchJsxTpl, matchJsxStr,
   matchDataHsDq, matchDataHsSq, matchHsBlock,
   fun s => matchSimpleTag "hs_attr".data '\x22' s,
   fun s => matchSimpleTag "hs_attr".data '\x27' s,
   fun s => matchSimpleTag "hs_script".data '\x22' s,
   fun s => matchSimpleTag "hs_script".data '\x27' s,
   matchScriptTag]

def finditerGo (m : List Char → Option (List Char × List Char)) :
    Nat → List Char → List (List Char)
  | 0, _ => []
  | _ + 1, [] => []
  | fuel + 1, c :: cs =>
    match m (c :: cs) with
    | some (cap, rest) => cap :: finditerGo m fuel rest
    | none => finditerGo m fuel cs

/-- Model of `re.finditer` group-1 extraction: scan left to right and, on a
match, emit the capture and resume right after the match.  Every pattern here
consumes at least one character per match, so fuel of one step per input
character can never be exhausted. -/
def finditer (m : List Char → Option (List Char × List Char)) (s : List Char) :
    List (List Char) :=
  finditerGo m (s.length + 1) s

/-- Model of Python `str.strip()`. -/
def stripChars (s : List Char) : List Char :=
  ((s.dropWhile isSpaceChar).reverse.dropWhile isSpaceChar).reverse

/-- Model of `Scanner.extract_hyperscript`: run every carrier pattern over
the full content in catalog order, strip each captured snippet, and keep the
non-empty ones. -/
def extract_hyperscript (content : String) : List String :=
  ((HYPERSCRIPT_PATTERNS.map (fun m => finditer m content.data)).flatten).filterMap
    (fun cap =>
      let t := stripChars cap
      if t.isEmpty then none else some (String.mk t))

/-- Scanner configuration after `__init__` has resolved the defaults.  The
Python `include_extensions` set is modelled as a list; only membership in it
is ever used. -/
structure Scanner where
  include_extensions : List String
  exclude_patterns : List String
  debug : Bool

def DEFAULT_INCLUDE_EXTENSIONS : List String :=
  [".html", ".htm", ".txt", ".xml", ".jinja", ".jinja2"]

def DEFAULT_EXCLUDE_PATTERNS : List String :=
  ["__pycache__", ".git", "node_modules", ".venv", "venv", "site-packages"]

/-- Model of `Scanner.__init__`: a missing or empty (Python-falsy) argument
falls back to the default collection through the or-expressions in the
source. -/
def Scanner.init (inc : Option (List String)) (exc : Option (List String))
    (debug : Bool) : Scanner :=
  { include_extensions :=
      match inc with
      | some l => if l.isEmpty then DEFAULT_INCLUDE_EXTENSIONS else l
      | none => DEFAULT_INCLUDE_EXTENSIONS
    exclude_patterns :=
      match exc with
      | some l => if l.isEmpty then DEFAULT_EXCLUDE_PATTERNS else l
      | none => DEFAULT_EXCLUDE_PATTERNS
    debug := debug }

def startsWithL : List Char → List Char → Bool
  | [], _ => true
  | _ :: _, [] => false
  | p :: ps, c :: cs => p == c && startsWithL ps cs

def isSubstrL (p : List Char) : List Char → Bool
  | [] => p.isEmpty
  | c :: cs => startsWithL p (c :: cs) || isSubstrL p cs

/-- Model of the Python `in` operator on strings: substring containment. -/
def isSubstr (pat s : String) : Bool := isSubstrL pat.data s.data

/-- Model of `pathlib` `Path.suffix` for a path given as a normalised string:
the final dot-led extension of the last path component, empty when the last
component has no interior dot before its end. -/
def pathSuffix (p : String) : String :=
  let name := (p.data.reverse.takeWhile (fun c => c != '/')).reverse
  let post := name.reverse.takeWhile (fun c => c != '.')
  if name.contains '.' && !post.isEmpty && post.length + 1 != name.length
  then String.mk ('.' :: post.reverse)
  else ""

/-- Model of `Scanner.should_scan`: the lower-cased suffix must be one of the
configured extensions, and no exclude pattern may occur in the path string. -/
def Scanner.should_scan (self : Scanner) (path : String) : Bool :=
  if !(self.include_extensions.contains (strLower (pathSuffix path))) then false
  else if self.exclude_patterns.any (fun pat => isSubstr pat path) then false
  else true

/-- Model of `Scanner.scan_content`: extract the snippets, analyze each, and
fold the results with merge into an initially empty usage.  The debug print
in the source emits a diagnostic line and does not touch the returned
value. -/
def Scanner.scan_content (_self : Scanner) (content : String)
    (_file_path : String) : FileUsage :=
  (extract_hyperscript content).foldl
    (fun acc s => acc.merge (analyze_script s)) FileUsage.empty

/-- Model of `Scanner.scan_file`.  The result of `path.read_text` is passed
as a function returning an `Option`: `none` stands for any raised failure
(missing file, permission error, decode error), which the source catches and
converts into an empty usage. -/
def Scanner.scan_file (self : Scanner) (read : String → Option String)
    (path : String) : FileUsage :=
  match read path with
  | some content => self.scan_content content path
  | none => FileUsage.empty

/-- Filesystem interface used by the directory walks: existence test,
recursive listing, file test, and text reading (`none` is a read failure). -/
structure FileSystem where
  pathExists : String → Bool
  rglob : String → List String
  isFile : String → Bool
  readText : String → Option String

/-- Model of `Scanner.scan_directory`: an empty mapping for a missing root,
otherwise one entry per eligible file whose scanned usage is truthy.  The
Python dict keyed by distinct paths is modelled as an association list in
insertion order. -/
def Scanner.scan_directory (self : Scanner) (fs : FileSystem)
    (directory : String) : List (String × FileUsage) :=
  if !(fs.pathExists directory) then []
  else
    ((fs.rglob directory).filter
        (fun p => fs.isFile p && self.should_scan p)).filterMap
      (fun p =>
        let u := self.scan_file fs.readText p
        if u.toBool then some (p, u) else none)

/-- Model of `dict.update` on association lists: values of existing keys are
replaced in place, new keys are appended in iteration order. -/
def dictUpdate (a b : List (String × FileUsage)) : List (String × FileUsage) :=
  (a.map (fun kv =>
    match b.find? (fun kv2 => kv2.1 == kv.1) with
    | some kv2 => (kv.1, kv2.2)
    | none => kv))
  ++ b.filter (fun kv2 => !(a.any (fun kv => kv.1 == kv2.1)))

/-- Model of `Scanner.scan_directories`: fold each directory result into the
accumulated mapping with `dict.update`. -/
def Scanner.scan_directories (self : Scanner) (fs : FileSystem)
    (dirs : List String) : List (String × FileUsage) :=
  dirs.foldl (fun results d => dictUpdate results (self.scan_directory fs d)) []

/-! Heap-level model of the mutating `FileUsage.merge`, used to settle the
frame claim about the argument.  Python set objects live in a heap addressed
by references; a `FileUsage` instance holds references to its two set
objects plus its inline boolean field. -/

/-- Object-level view of a `FileUsage` instance. -/
structure FileUsageObj where
  commandsRef : Nat
  blocksRef : Nat
  positional : Bool
deriving DecidableEq

/-- Heap holding the mutable set objects and the `FileUsage` instances. -/
structure PyHeap where
  sets : Nat → Finset String
  objs : Nat → FileUsageObj

def setStore (h : Nat → Finset String) (r : Nat) (v : Finset String) :
    Nat → Finset String :=
  fun r2 => if r2 = r then v else h r2

def objStore (h : Nat → FileUsageObj) (r : Nat) (v : FileUsageObj) :
    Nat → FileUsageObj :=
  fun r2 => if r2 = r then v else h r2

/-- Statement-by-statement model of `FileUsage.merge` as executed on the
heap: `self.commands.update(other.commands)`, then
`self.blocks.update(other.blocks)`, then
`if other.positional: self.positional = True`. -/
def mergePy (h : PyHeap) (selfRef otherRef : Nat) : PyHeap :=
  let s1 := setStore h.sets (h.objs selfRef).commandsRef
      (h.sets (h.objs selfRef).commandsRef ∪ h.sets (h.objs otherRef).commandsRef)
  let s2 := setStore s1 (h.objs selfRef).blocksRef
      (s1 ((h.objs selfRef).blocksRef) ∪ s1 ((h.objs otherRef).blocksRef))
  let o2 :=
    if (h.objs otherRef).positional then
      objStore h.objs selfRef
        { h.objs selfRef with positional := true }
    else h.objs
  { sets := s2, objs := o2 }

/-- Observable value of the `FileUsage` instance behind a reference: the
contents of its commands and blocks sets and its positional flag. -/
def observeUsage (h : PyHeap) (r : Nat) : Finset String × Finset String × Bool :=
  (h.sets ((h.objs r).commandsRef), h.sets ((h.objs r).blocksRef),
   (h.objs r).positional)

/-! Spec-side declarative predicates, used on the specification side of the
classification claims. -/

/-- The position after `pre` is at a regex word boundary from the left:
either the start of the input (the Bool records whether the search began at
a boundary) or right after a non-word character. -/
def prevOK (b : Bool) (pre : List Char) : Prop :=
  (pre = [] ∧ b = true) ∨ ∃ p c, pre = p ++ [c] ∧ isWordChar c = false

/-- Word boundary on the right: end of input or a non-word character next. -/
def nextOK (post : List Char) : Prop :=
  post = [] ∨ ∃ c p, post = c :: p ∧ isWordChar c = false

/-- Spec-side reading of: the string contains a word-bounded,
case-insensitive occurrence of the keyword. -/
def containsWordCI (kw s : String) : Prop :=
  ∃ pre mid post,
    s.data = pre ++ mid ++ post ∧
    mid.map Char.toLower = kw.data.map Char.toLower ∧
    prevOK true pre ∧ nextOK post

/-- Spec-side reading of the count shapes allowed in a repeat phrase: a
decimal integer, a colon-prefixed identifier, a dollar-prefixed identifier,
or a dotted path expression. -/
def countShape (l : List Char) : Prop :=
  (l ≠ [] ∧ ∀ c ∈ l, isDigitChar c = true)
  ∨ (∃ t, l = ':' :: t ∧ t ≠ [] ∧ ∀ c ∈ t, isWordChar c = true)
  ∨ (∃ t, l = '$' :: t ∧ t ≠ [] ∧ ∀ c ∈ t, isWordChar c = true)
  ∨ (l ≠ [] ∧ ∀ c ∈ l, (isWordChar c || c == '.') = true)

/-- Spec-side reading of: the snippet contains, word-bounded and
case-insensitively, the phrase `repeat <count> time` or
`repeat <count> times` with whitespace between the words. -/
def specRepeatPhrase (s : String) : Prop :=
  ∃ pre rpt sp1 cnt sp2 tw post,
    s.data = pre ++ (rpt ++ (sp1 ++ (cnt ++ (sp2 ++ (tw ++ post))))) ∧
    rpt.map Char.toLower = "repeat".data ∧
    sp1 ≠ [] ∧ (∀ c ∈ sp1, isSpaceChar c = true) ∧
    countShape cnt ∧
    sp2 ≠ [] ∧ (∀ c ∈ sp2, isSpaceChar c = true) ∧
    (tw.map Char.toLower = "time".data ∨ tw.map Char.toLower = "times".data) ∧
    prevOK true pre ∧ nextOK post

/-! Concrete fixtures used by witnesses and counterexamples. -/

/-- A one-file filesystem whose only file is a template using `toggle`. -/
def fsOneFile : FileSystem :=
  { pathExists := fun d => d == "t"
    rglob := fun _ => ["t/a.html"]
    isFile := fun _ => true
    readText := fun _ => some "_=\x22toggle .foo\x22" }

/-- A filesystem with no directories at all. -/
def fsEmpty : FileSystem :=
  { pathExists := fun _ => false
    rglob := fun _ => []
    isFile := fun _ => false
    readText := fun _ => none }

/-- Heap in which the receiver's blocks set object is the same object as the
argument's commands set object (`a.blocks is b.commands` in Python terms):
instance 10 is the receiver, instance 11 the argument. -/
def aliasedHeap : PyHeap :=
  { sets := fun r => if r = 1 then {"a"} else if r = 2 then {"b"} else ∅
    objs := fun r =>
      if r = 10 then ⟨0, 1, false⟩
      else if r = 11 then ⟨1, 2, false⟩
      else ⟨5, 6, false⟩ }

/-- Heap in which the two instances own disjoint set objects. -/
def disjointHeap : PyHeap :=
  { sets := fun r => if r = 0 then {"x"} else if r = 2 then {"y"} else ∅
    objs := fun r =>
      if r = 10 then ⟨0, 1, false⟩
      else if r = 11 then ⟨2, 3, true⟩
      else ⟨5, 6, false⟩ }

/-! General lemmas about the matching machinery. -/

theorem dropCI_append (kw : List Char) :
    ∀ (mid r : List Char), mid.map Char.toLower = kw.map Char.toLower →
      dropCI kw (mid ++ r) = some r := by
  induction kw with
  | nil =>
    intro mid r h
    have : mid = [] := by simpa using h
    subst this
    rfl
  | cons k ks ih =>
    intro mid r h
    cases mid with
    | nil => simp at h
    | cons c cs =>
      simp only [List.map_cons, List.cons.injEq] at h
      simp only [List.cons_append, dropCI, h.1, beq_self_eq_true, if_true]
      exact ih cs r h.2

theorem dropCI_some (kw : List Char) :
    ∀ (s r : List Char), dropCI kw s = some r →
      ∃ mid, s = mid ++ r ∧ mid.map Char.toLower = kw.map Char.toLower := by
  induction kw with
  | nil =>
    intro s r h
    simp only [dropCI, Option.some.injEq] at h
    exact ⟨[], by simp [h], rfl⟩
  | cons k ks ih =>
    intro s r h
    cases s with
    | nil => simp [dropCI] at h
    | cons c cs =>
      simp only [dropCI] at h
      by_cases hc : Char.toLower c = Char.toLower k
      · rw [if_pos (by exact beq_iff_eq.mpr hc)] at h
        obtain ⟨mid, h1, h2⟩ := ih cs r h
        exact ⟨c :: mid, by simp [h1], by simp [h2, hc]⟩
      · rw [if_neg (by simpa using hc)] at h
        cases h

theorem notWordStart_iff (l : List Char) : notWordStart l = true ↔ nextOK l := by
  cases l with
  | nil => simp [notWordStart, nextOK]
  | cons c cs =>
    simp only [notWordStart, nextOK, Bool.not_eq_true']
    constructor
    · intro h
      exact Or.inr ⟨c, cs, rfl, h⟩
    · rintro (h | ⟨c2, p2, heq, h⟩)
      · cases h
      · cases heq
        exact h

theorem searchFrom_iff (m : List Char → Bool) :
    ∀ (s : List Char) (b : Bool),
      searchFrom m b s = true ↔
        ∃ pre suf, s = pre ++ suf ∧ suf ≠ [] ∧ m suf = true ∧ prevOK b pre := by
  intro s
  induction s with
  | nil =>
    intro b
    simp only [searchFrom]
    constructor
    · intro h
      cases h
    · rintro ⟨pre, suf, heq, hne, _, _⟩
      exact absurd (List.append_eq_nil.mp heq.symm).2 hne
  | cons c cs ih =>
    intro b
    simp only [searchFrom, Bool.or_eq_true, Bool.and_eq_true]
    constructor
    · rintro (⟨hb, hm⟩ | hrec)
      · exact ⟨[], c :: cs, rfl, by simp, hm, Or.inl ⟨rfl, hb⟩⟩
      · obtain ⟨pre, suf, heq, hne, hm, hprev⟩ := (ih (!isWordChar c)).mp hrec
        refine ⟨c :: pre, suf, by simp [heq], hne, hm, ?_⟩
        rcases hprev with ⟨rfl, hb2⟩ | ⟨p, d, rfl, hd⟩
        · exact Or.inr ⟨[], c, rfl, by simpa using hb2⟩
        · exact Or.inr ⟨c :: p, d, rfl, hd⟩
    · rintro ⟨pre, suf, heq, hne, hm, hprev⟩
      cases pre with
      | nil =>
        rcases hprev with ⟨_, hb⟩ | ⟨p, d, hpd, _⟩
        · simp only [List.nil_append] at heq
          exact Or.inl ⟨hb, heq ▸ hm⟩
        · simp at hpd
      | cons c2 p2 =>
        simp only [List.cons_append, List.cons.injEq] at heq
        obtain ⟨rfl, heq2⟩ := heq
        refine Or.inr ((ih (!isWordChar c)).mpr ⟨p2, suf, heq2, hne, hm, ?_⟩)
        rcases hprev with ⟨h0, _⟩ | ⟨p, d, hpd, hd⟩
        · cases h0
        · cases p with
          | nil =>
            simp only [List.nil_append, List.cons.injEq] at hpd
            obtain ⟨rfl, rfl⟩ := hpd
            exact Or.inl ⟨rfl, by simp [hd]⟩
          | cons e es =>
            simp only [List.cons_append, List.cons.injEq] at hpd
            obtain ⟨rfl, rfl⟩ := hpd
            exact Or.inr ⟨es, d, rfl, hd⟩

theorem hasWordCI_iff (kw s : String) (hne : kw.data ≠ []) :
    hasWordCI kw s = true ↔ containsWordCI kw s := by
  unfold hasWordCI containsWordCI
  rw [searchFrom_iff]
  constructor
  · rintro ⟨pre, suf, heq, _, hm, hprev⟩
    rcases hd : dropCI kw.data suf with _ | rest
    · rw [hd] at hm
      cases hm
    · rw [hd] at hm
      obtain ⟨mid, rfl, hmid⟩ := dropCI_some kw.data suf rest hd
      exact ⟨pre, mid, rest, by simp [heq], hmid,
        hprev, (notWordStart_iff rest).mp hm⟩
  · rintro ⟨pre, mid, post, heq, hmid, hprev, hnext⟩
    refine ⟨pre, mid ++ post, by simp [heq], ?_, ?_, hprev⟩
    · intro h0
      obtain ⟨h1, _⟩ := List.append_eq_nil.mp h0
      subst h1
      exact hne (by simpa using hmid.symm)
    · rw [dropCI_append kw.data mid post hmid]
      exact (notWordStart_iff post).mpr hnext

/-! Claim theorems. -/

/-- Claim C2: merge, read as the function from two usage values to the
combined usage, is commutative, associative, and idempotent. -/
theorem merge_comm_assoc_idem (a b c : FileUsage) :
    a.merge b = b.merge a
    ∧ (a.merge b).merge c = a.merge (b.merge c)
    ∧ a.merge a = a := by
  refine ⟨?_, ?_, ?_⟩
  · cases a
    cases b
    simp only [FileUsage.merge, FileUsage.mk.injEq]
    exact ⟨Finset.union_comm _ _, Finset.union_comm _ _, Bool.or_comm _ _⟩
  · cases a
    cases b
    cases c
    simp only [FileUsage.merge, FileUsage.mk.injEq]
    exact ⟨Finset.union_assoc _ _ _, Finset.union_assoc _ _ _, Bool.or_assoc _ _ _⟩
  · cases a
    simp only [FileUsage.merge, FileUsage.mk.injEq]
    exact ⟨Finset.union_self _, Finset.union_self _, Bool.or_self _⟩

/-- Claim C9: the usage returned by scan_content does not depend on the
debug flag or on the label argument; they feed diagnostics only. -/
theorem scan_content_ignores_debug_and_label (inc exc : List String)
    (d1 d2 : Bool) (content label1 label2 : String) :
    (Scanner.mk inc exc d1).scan_content content label1
      = (Scanner.mk inc exc d2).scan_content content label2 := rfl

/-- Claim C7: the inline attribute carrier and the paired block-tag carrier
produce the identical classification: commands toggle, no blocks, no
positional flag. -/
theorem attr_and_block_tag_same_classification :
    (Scanner.init none none false).scan_content "_=\x22toggle .foo\x22" "<string>"
      = ⟨{"toggle"}, ∅, false⟩
    ∧ (Scanner.init none none false).scan_content
        "\x7b% hs %\x7don click toggle .foo\x7b% endhs %\x7d" "<string>"
      = ⟨{"toggle"}, ∅, false⟩ := by
  exact ⟨by decide, by decide⟩

/-- Claim C5: a read failure never propagates out of scan_file; the result
is the empty usage. -/
theorem scan_file_read_failure_empty (cfg : Scanner)
    (read : String → Option String) (path : String) (h : read path = none) :
    cfg.scan_file read path = FileUsage.empty := by
  unfold Scanner.scan_file
  rw [h]

/-- Witness for C5 at a concrete failing read. -/
theorem scan_file_read_failure_empty_witness :
    (Scanner.init none none false).scan_file (fun _ => none) "missing.html"
      = FileUsage.empty :=
  scan_file_read_failure_empty (Scanner.init none none false)
    (fun _ => none) "missing.html" rfl

/-- Claim C6: scanning a nonexistent root yields the empty mapping. -/
theorem scan_directory_missing_root (cfg : Scanner) (fs : FileSystem)
    (root : String) (h : fs.pathExists root = false) :
    cfg.scan_directory fs root = [] := by
  unfold Scanner.scan_directory
  rw [h]
  rfl

/-- Witness for C6 on a filesystem with no directories. -/
theorem scan_directory_missing_root_witness :
    (Scanner.init none none false).scan_directory fsEmpty "missing" = [] :=
  scan_directory_missing_root (Scanner.init none none false) fsEmpty
    "missing" rfl

theorem mem_scan_directory_toBool (cfg : Scanner) (fs : FileSystem)
    (dir p : String) (u : FileUsage)
    (h : (p, u) ∈ cfg.scan_directory fs dir) : u.toBool = true := by
  unfold Scanner.scan_directory at h
  by_cases he : fs.pathExists dir
  · rw [he] at h
    simp only [Bool.not_true, Bool.false_eq_true, if_false] at h
    obtain ⟨a, _, heq⟩ := List.mem_filterMap.mp h
    by_cases hb : (cfg.scan_file fs.readText a).toBool
    · simp only [hb, if_true] at heq
      obtain ⟨_, rfl⟩ := Prod.mk.injEq .. ▸ Option.some.injEq .. ▸ heq
      exact hb
    · simp only [hb, if_false] at heq
      cases heq
  · rw [Bool.not_eq_true] at he
    rw [he] at h
    simp at h

theorem mem_dictUpdate (a b : List (String × FileUsage)) (p : String)
    (u : FileUsage) (h : (p, u) ∈ dictUpdate a b) :
    (∃ q, (q, u) ∈ a) ∨ (∃ q, (q, u) ∈ b) := by
  unfold dictUpdate at h
  rcases List.mem_append.mp h with h1 | h1
  · obtain ⟨kv, hkv, heq⟩ := List.mem_map.mp h1
    rcases hf : b.find? (fun kv2 => kv2.1 == kv.1) with _ | kv2
    · rw [hf] at heq
      exact Or.inl ⟨p, heq ▸ hkv⟩
    · rw [hf] at heq
      have hkv2 : kv2 ∈ b := List.mem_of_find?_eq_some hf
      have : u = kv2.2 := (Prod.mk.injEq .. ▸ heq).2.symm
      exact Or.inr ⟨kv2.1, by rw [this]; exact hkv2⟩
  · exact Or.inr ⟨p, (List.mem_filter.mp h1).1⟩

theorem scan_directories_fold_inv (cfg : Scanner) (fs : FileSystem) :
    ∀ (dirs : List String) (acc : List (String × FileUsage)),
      (∀ p u, (p, u) ∈ acc → FileUsage.toBool u = true) →
      ∀ p u,
        (p, u) ∈ dirs.foldl
          (fun results d => dictUpdate results (cfg.scan_directory fs d)) acc →
        FileUsage.toBool u = true := by
  intro dirs
  induction dirs with
  | nil =>
    intro acc hacc p u h
    exact hacc p u h
  | cons d ds ih =>
    intro acc hacc p u h
    refine ih (dictUpdate acc (cfg.scan_directory fs d)) ?_ p u h
    intro p2 u2 h2
    rcases mem_dictUpdate _ _ _ _ h2 with ⟨q, hq⟩ | ⟨q, hq⟩
    · exact hacc q u2 hq
    · exact mem_scan_directory_toBool cfg fs d q u2 hq

/-- Claim C8: every usage stored by scan_directory or scan_directories is
truthy in the sense of FileUsage.__bool__ (some command, some block, or the
positional flag). -/
theorem scan_results_nonempty :
    (∀ (cfg : Scanner) (fs : FileSystem) (dir p : String) (u : FileUsage),
      (p, u) ∈ cfg.scan_directory fs dir → u.toBool = true)
    ∧ (∀ (cfg : Scanner) (fs : FileSystem) (dirs : List String)
        (p : String) (u : FileUsage),
      (p, u) ∈ cfg.scan_directories fs dirs → u.toBool = true) := by
  constructor
  · exact mem_scan_directory_toBool
  · intro cfg fs dirs p u h
    exact scan_directories_fold_inv cfg fs dirs [] (by intro p2 u2 h2; cases h2) p u h

/-- Witness for C8 on a concrete one-file tree. -/
theorem scan_results_nonempty_witness :
    (FileUsage.mk {"toggle"} ∅ false).toBool = true :=
  scan_results_nonempty.1 (Scanner.init none none false) fsOneFile "t"
    "t/a.html" (FileUsage.mk {"toggle"} ∅ false) (by decide)

/-- Claim C4 counterexample: should_scan is not a case-insensitive
membership test against the configured extensions.  The code lower-cases
only the path suffix, so a configuration holding an upper-case extension
never matches any path, even one whose extension equals it exactly. -/
theorem should_scan_ci_counterexample :
    ¬ (∀ (cfg : Scanner) (path : String),
        cfg.should_scan path = true ↔
          ((∃ e ∈ cfg.include_extensions,
              strLower e = strLower (pathSuffix path)) ∧
           ∀ pat ∈ cfg.exclude_patterns, isSubstr pat path = false)) := by
  intro hclaim
  have h2 := (hclaim (Scanner.init (some [".HTML"]) none false) "a.HTML").mpr
    ⟨by decide, by decide⟩
  exact absurd h2 (by decide)

/-- Claim C4 amended: should_scan holds exactly when the lower-cased path
suffix is literally an element of include_extensions (case-insensitive in
the path, case-sensitive in the configuration) and the path string contains
no exclude pattern; with the default configuration an eligible extension is
still rejected when the path mentions node_modules. -/
theorem should_scan_characterization :
    (∀ (cfg : Scanner) (path : String),
        cfg.should_scan path = true ↔
          (strLower (pathSuffix path) ∈ cfg.include_extensions ∧
           ∀ pat ∈ cfg.exclude_patterns, isSubstr pat path = false))
    ∧ (Scanner.init none none false).should_scan "templates/node_modules/a.html"
        = false := by
  constructor
  · intro cfg path
    have hval : cfg.should_scan path =
        (cfg.include_extensions.contains (strLower (pathSuffix path))
          && !(cfg.exclude_patterns.any (fun pat => isSubstr pat path))) := by
      unfold Scanner.should_scan
      by_cases h1 : cfg.include_extensions.contains (strLower (pathSuffix path)) <;>
        by_cases h2 : cfg.exclude_patterns.any (fun pat => isSubstr pat path) <;>
          simp [h1, h2]
    rw [hval]
    simp
  · decide

/-- Witness for the amended C4 on an eligible default-configuration path. -/
theorem should_scan_characterization_witness :
    (Scanner.init none none false).should_scan "templates/a.html" = true :=
  (should_scan_characterization.1 (Scanner.init none none false)
    "templates/a.html").mpr ⟨by decide, by decide⟩

theorem setStore_eq (h : Nat → Finset String) (r : Nat) (v : Finset String) :
    setStore h r v r = v := by
  unfold setStore
  rw [if_pos rfl]

theorem setStore_ne (h : Nat → Finset String) (r : Nat) (v : Finset String)
    (r2 : Nat) (hne : r2 ≠ r) : setStore h r v r2 = h r2 := by
  unfold setStore
  rw [if_neg hne]

/-- Claim C10 counterexample: when the argument's commands set object is the
same Python object as the receiver's blocks set object, merge visibly
mutates the argument. -/
theorem merge_argument_mutation_counterexample :
    observeUsage (mergePy aliasedHeap 10 11) 11 ≠ observeUsage aliasedHeap 11 := by
  decide

/-- Claim C10 amended: merge writes only through the receiver's fields.  The
argument's positional flag is always unchanged, and when neither of the
argument's set objects is aliased to the opposite set object of the receiver
the argument's commands and blocks sets are unchanged as well. -/
theorem merge_mutates_only_receiver_amended (h : PyHeap)
    (selfRef otherRef : Nat) :
    ((mergePy h selfRef otherRef).objs otherRef).positional
        = (h.objs otherRef).positional
    ∧ ((h.objs selfRef).commandsRef ≠ (h.objs otherRef).blocksRef →
        (h.objs selfRef).blocksRef ≠ (h.objs otherRef).commandsRef →
        observeUsage (mergePy h selfRef otherRef) otherRef
          = observeUsage h otherRef) := by
  have hobj : ∀ r, ((mergePy h selfRef otherRef).objs r).commandsRef
      = (h.objs r).commandsRef
      ∧ ((mergePy h selfRef otherRef).objs r).blocksRef
        = (h.objs r).blocksRef := by
    intro r
    unfold mergePy objStore
    by_cases hp : (h.objs otherRef).positional <;>
      by_cases hr : r = selfRef <;> simp [hp, hr]
  have hpos : ((mergePy h selfRef otherRef).objs otherRef).positional
      = (h.objs otherRef).positional := by
    unfold mergePy objStore
    by_cases hp : (h.objs otherRef).positional <;>
      by_cases hr : otherRef = selfRef <;> simp [hp, hr] <;> rw [← hr] <;>
        simp [hp]
  refine ⟨hpos, ?_⟩
  intro h1 h2
  have hsC : (mergePy h selfRef otherRef).sets ((h.objs otherRef).commandsRef)
      = h.sets ((h.objs otherRef).commandsRef) := by
    simp only [mergePy]
    rw [setStore_ne _ _ _ _ (Ne.symm h2)]
    by_cases hCA : (h.objs otherRef).commandsRef = (h.objs selfRef).commandsRef
    · rw [hCA, setStore_eq]
      exact Finset.union_self _
    · exact setStore_ne _ _ _ _ hCA
  have hsD : (mergePy h selfRef otherRef).sets ((h.objs otherRef).blocksRef)
      = h.sets ((h.objs otherRef).blocksRef) := by
    simp only [mergePy]
    by_cases hDB : (h.objs otherRef).blocksRef = (h.objs selfRef).blocksRef
    · rw [hDB, setStore_eq, Finset.union_self]
      refine setStore_ne _ _ _ _ ?_
      rw [← hDB]
      exact Ne.symm h1
    · rw [setStore_ne _ _ _ _ hDB]
      exact setStore_ne _ _ _ _ (Ne.symm h1)
  unfold observeUsage
  rw [(hobj otherRef).1, (hobj otherRef).2, hpos, hsC, hsD]

/-- Witness for the amended C10 on a heap with no aliasing across the two
instances. -/
theorem merge_mutates_only_receiver_amended_witness :
    observeUsage (mergePy disjointHeap 10 11) 11
      = observeUsage disjointHeap 11 :=
  (merge_mutates_only_receiver_amended disjointHeap 10 11).2
    (by decide) (by decide)

/-- Claim C1: a word-bounded case-insensitive occurrence of the keyword
`unless` makes the classifier add the canonical block kind `if`; the blocks
set never contains an `unless` entry; and the example snippet classifies to
exactly the `if` block. -/
theorem unless_contributes_if :
    (∀ script : String, containsWordCI "unless" script →
      "if" ∈ (analyze_script script).blocks)
    ∧ (∀ script : String, "unless" ∉ (analyze_script script).blocks)
    ∧ (analyze_script "unless x is true").blocks = {"if"} := by
  refine ⟨?_, ?_, by decide⟩
  · intro script hc
    have hw : hasWordCI "unless" script = true :=
      (hasWordCI_iff "unless" script (by decide)).mpr hc
    show "if" ∈ ((BLOCK_PATTERNS.filter (fun bp => bp.2 script)).map
      (fun bp => if bp.1 = "unless" then "if" else bp.1)).toFinset
    refine List.mem_toFinset.mpr (List.mem_map.mpr
      ⟨("unless", fun s => hasWordCI "unless" s), ?_, by decide⟩)
    exact List.mem_filter.mpr ⟨by simp [BLOCK_PATTERNS], hw⟩
  · intro script h
    have h2 : "unless" ∈ ((BLOCK_PATTERNS.filter (fun bp => bp.2 script)).map
        (fun bp => if bp.1 = "unless" then "if" else bp.1)).toFinset := h
    obtain ⟨bp, hbp, heq⟩ := List.mem_map.mp (List.mem_toFinset.mp h2)
    have hfst : bp.1 ∈ BLOCK_PATTERNS.map Prod.fst :=
      List.mem_map_of_mem _ (List.mem_filter.mp hbp).1
    have hnames : BLOCK_PATTERNS.map Prod.fst
        = ["if", "unless", "repeat", "for", "while", "fetch", "async"] := rfl
    rw [hnames] at hfst
    simp only [List.mem_cons, List.not_mem_nil, or_false] at hfst
    rcases hfst with h1 | h1 | h1 | h1 | h1 | h1 | h1 <;> rw [h1] at heq <;>
      exact absurd heq (by decide)

/-- Witness for C1 at the snippet from the spec example. -/
theorem unless_contributes_if_witness :
    "if" ∈ (analyze_script "unless x is true").blocks :=
  unless_contributes_if.1 "unless x is true"
    ⟨[], "unless".data, " x is true".data, by decide, rfl,
     Or.inl ⟨rfl, rfl⟩, Or.inr ⟨' ', "x is true".data, by decide, by decide⟩⟩

theorem space_cases (c : Char) (h : isSpaceChar c = true) :
    c = ' ' ∨ c = '\t' ∨ c = '\n' ∨ c = '\r' ∨ c = '\x0b' ∨ c = '\x0c' := by
  unfold isSpaceChar at h
  simpa [or_assoc] using h

theorem space_toLower (c : Char) (h : isSpaceChar c = true) :
    Char.toLower c = c := by
  rcases space_cases c h with rfl | rfl | rfl | rfl | rfl | rfl <;> decide

theorem space_char_classes (c : Char) (h : isSpaceChar c = true) :
    isDigitChar c = false ∧ isWordChar c = false ∧ (c == ':') = false
      ∧ (c == '$') = false ∧ (isWordChar c || c == '.') = false := by
  rcases space_cases c h with rfl | rfl | rfl | rfl | rfl | rfl <;>
    exact ⟨by decide, by decide, by decide, by decide, by decide⟩

theorem count_chars_not_space (cnt : List Char) (h : countShape cnt) :
    ∀ c ∈ cnt, isSpaceChar c = false := by
  intro c hc
  cases hs : isSpaceChar c with
  | false => rfl
  | true =>
    exfalso
    obtain ⟨hd, hw, hcol, hdol, hwd⟩ := space_char_classes c hs
    rcases h with ⟨_, hall⟩ | ⟨t, heq, _, hall⟩ | ⟨t, heq, _, hall⟩ | ⟨_, hall⟩
    · rw [hall c hc] at hd
      cases hd
    · subst heq
      rcases List.mem_cons.mp hc with rfl | hct
      · simp at hcol
      · rw [hall c hct] at hw
        cases hw
    · subst heq
      rcases List.mem_cons.mp hc with rfl | hct
      · simp at hdol
      · rw [hall c hct] at hw
        cases hw
    · rw [hall c hc] at hwd
      cases hwd

theorem digits_shape (l : List Char) :
    (!l.isEmpty && l.all isDigitChar) = true
      ↔ (l ≠ [] ∧ ∀ c ∈ l, isDigitChar c = true) := by
  cases l <;> simp [List.all_eq_true]

theorem colon_shape (l : List Char) :
    (match l with
     | c :: t => c == ':' && !t.isEmpty && t.all isWordChar
     | [] => false) = true
      ↔ (∃ t, l = ':' :: t ∧ t ≠ [] ∧ ∀ c ∈ t, isWordChar c = true) := by
  cases l with
  | nil => simp
  | cons c cs =>
    simp only [List.cons.injEq, Bool.and_eq_true, beq_iff_eq, List.all_eq_true,
      Bool.not_eq_true', ne_eq]
    constructor
    · rintro ⟨⟨hc, hne⟩, hall⟩
      refine ⟨cs, ⟨hc, rfl⟩, ?_, hall⟩
      intro h0
      rw [h0] at hne
      simp at hne
    · rintro ⟨t, ⟨hc, ht⟩, hne, hall⟩
      subst ht
      refine ⟨⟨hc, ?_⟩, hall⟩
      cases cs with
      | nil => exact absurd rfl hne
      | cons a l2 => rfl

theorem dollar_shape (l : List Char) :
    (match l with
     | c :: t => c == '$' && !t.isEmpty && t.all isWordChar
     | [] => false) = true
      ↔ (∃ t, l = '$' :: t ∧ t ≠ [] ∧ ∀ c ∈ t, isWordChar c = true) := by
  cases l with
  | nil => simp
  | cons c cs =>
    simp only [List.cons.injEq, Bool.and_eq_true, beq_iff_eq, List.all_eq_true,
      Bool.not_eq_true', ne_eq]
    constructor
    · rintro ⟨⟨hc, hne⟩, hall⟩
      refine ⟨cs, ⟨hc, rfl⟩, ?_, hall⟩
      intro h0
      rw [h0] at hne
      simp at hne
    · rintro ⟨t, ⟨hc, ht⟩, hne, hall⟩
      subst ht
      refine ⟨⟨hc, ?_⟩, hall⟩
      cases cs with
      | nil => exact absurd rfl hne
      | cons a l2 => rfl

theorem worddot_shape (l : List Char) :
    (!l.isEmpty && l.all (fun c => isWordChar c || c == '.')) = true
      ↔ (l ≠ [] ∧ ∀ c ∈ l, (isWordChar c || c == '.') = true) := by
  cases l <;> simp [List.all_eq_true]

theorem isCount_iff (l : List Char) : isCount l = true ↔ countShape l := by
  unfold isCount countShape
  rw [Bool.or_eq_true, Bool.or_eq_true, Bool.or_eq_true]
  constructor
  · rintro (((hA | hB) | hC) | hD)
    · exact Or.inl ((digits_shape l).mp hA)
    · exact Or.inr (Or.inl ((colon_shape l).mp hB))
    · exact Or.inr (Or.inr (Or.inl ((dollar_shape l).mp hC)))
    · exact Or.inr (Or.inr (Or.inr ((worddot_shape l).mp hD)))
  · rintro (h | h | h | h)
    · exact Or.inl (Or.inl (Or.inl ((digits_shape l).mpr h)))
    · exact Or.inl (Or.inl (Or.inr ((colon_shape l).mpr h)))
    · exact Or.inl (Or.inr ((dollar_shape l).mpr h))
    · exact Or.inr ((worddot_shape l).mpr h)

theorem span_exact (p : Char → Bool) :
    ∀ (l1 l2 : List Char), (∀ c ∈ l1, p c = true) →
      (∀ c, l2.head? = some c → p c = false) →
      (l1 ++ l2).takeWhile p = l1 ∧ (l1 ++ l2).dropWhile p = l2 := by
  intro l1
  induction l1 with
  | nil =>
    intro l2 _ hhead
    cases l2 with
    | nil => exact ⟨rfl, rfl⟩
    | cons c cs =>
      have hc := hhead c rfl
      rw [List.nil_append]
      exact ⟨by simp [List.takeWhile_cons, hc], by simp [List.dropWhile_cons, hc]⟩
  | cons a l1x ih =>
    intro l2 hall hhead
    have ha : p a = true := hall a (List.mem_cons_self a l1x)
    obtain ⟨ht, hd⟩ := ih l2 (fun c hc => hall c (List.mem_cons_of_mem a hc)) hhead
    constructor
    · rw [List.cons_append, List.takeWhile_cons, ha]
      simp [ht]
    · rw [List.cons_append, List.dropWhile_cons, ha]
      simp [hd]

theorem time_word_head (tw : List Char) (post : List Char)
    (htw : tw.map Char.toLower = "time".data ∨ tw.map Char.toLower = "times".data) :
    ∀ c, (tw ++ post).head? = some c → isSpaceChar c = false := by
  cases tw with
  | nil =>
    exfalso
    rcases htw with h | h <;> exact absurd h (by decide)
  | cons c0 rest =>
    intro c hc
    simp only [List.cons_append, List.head?_cons, Option.some.injEq] at hc
    subst hc
    have hc0 : Char.toLower c0 = 't' := by
      rcases htw with h | h <;>
      · have h4 := congrArg List.head? h
        simpa using h4
    cases hs : isSpaceChar c0 with
    | false => rfl
    | true =>
      exfalso
      rw [space_toLower c0 hs] at hc0
      subst hc0
      exact absurd hs (by decide)

theorem isTimeTail_iff (r : List Char) :
    isTimeTail r = true ↔
      ∃ tw post, r = tw ++ post ∧
        (tw.map Char.toLower = "time".data ∨ tw.map Char.toLower = "times".data) ∧
        nextOK post := by
  unfold isTimeTail
  constructor
  · intro h
    rw [Bool.or_eq_true] at h
    rcases h with h1 | h1
    · rcases hd : dropCI "times".data r with _ | t
      · rw [hd] at h1
        cases h1
      · rw [hd] at h1
        obtain ⟨mid, rfl, hmid⟩ := dropCI_some _ _ _ hd
        exact ⟨mid, t, rfl, Or.inr (hmid.trans (by decide)),
          (notWordStart_iff t).mp h1⟩
    · rcases hd : dropCI "time".data r with _ | t
      · rw [hd] at h1
        cases h1
      · rw [hd] at h1
        obtain ⟨mid, rfl, hmid⟩ := dropCI_some _ _ _ hd
        exact ⟨mid, t, rfl, Or.inl (hmid.trans (by decide)),
          (notWordStart_iff t).mp h1⟩
  · rintro ⟨tw, post, rfl, htw | htw, hnext⟩
    · rw [Bool.or_eq_true]
      refine Or.inr ?_
      rw [dropCI_append "time".data tw post (htw.trans (by decide))]
      exact (notWordStart_iff post).mpr hnext
    · rw [Bool.or_eq_true]
      refine Or.inl ?_
      rw [dropCI_append "times".data tw post (htw.trans (by decide))]
      exact (notWordStart_iff post).mpr hnext

theorem repeatTail_iff (r : List Char) :
    repeatTail r = true ↔
      ∃ sp1 cnt sp2 tw post,
        r = sp1 ++ (cnt ++ (sp2 ++ (tw ++ post))) ∧
        sp1 ≠ [] ∧ (∀ c ∈ sp1, isSpaceChar c = true) ∧
        countShape cnt ∧
        sp2 ≠ [] ∧ (∀ c ∈ sp2, isSpaceChar c = true) ∧
        (tw.map Char.toLower = "time".data ∨ tw.map Char.toLower = "times".data) ∧
        nextOK post := by
  constructor
  · intro h
    simp only [repeatTail, Bool.and_eq_true, Bool.not_eq_true'] at h
    obtain ⟨⟨⟨h1, h2⟩, h3⟩, h4⟩ := h
    obtain ⟨tw, post, hr3, htw, hnext⟩ := (isTimeTail_iff _).mp h4
    refine ⟨r.takeWhile isSpaceChar,
      (r.dropWhile isSpaceChar).takeWhile (fun c => !isSpaceChar c),
      ((r.dropWhile isSpaceChar).dropWhile (fun c => !isSpaceChar c)).takeWhile
        isSpaceChar,
      tw, post, ?_, ?_, ?_, (isCount_iff _).mp h2, ?_, ?_, htw, hnext⟩
    · exact (List.takeWhile_append_dropWhile isSpaceChar r).symm.trans
        (congrArg (fun x => r.takeWhile isSpaceChar ++ x)
          ((List.takeWhile_append_dropWhile (fun c => !isSpaceChar c)
              (r.dropWhile isSpaceChar)).symm.trans
            (congrArg
              (fun x =>
                (r.dropWhile isSpaceChar).takeWhile (fun c => !isSpaceChar c) ++ x)
              ((List.takeWhile_append_dropWhile isSpaceChar
                  ((r.dropWhile isSpaceChar).dropWhile
                    (fun c => !isSpaceChar c))).symm.trans
                (congrArg
                  (fun x =>
                    ((r.dropWhile isSpaceChar).dropWhile
                      (fun c => !isSpaceChar c)).takeWhile isSpaceChar ++ x)
                  hr3)))))
    · intro h0
      rw [h0] at h1
      simp at h1
    · exact fun c hc => List.mem_takeWhile_imp hc
    · intro h0
      rw [h0] at h3
      simp at h3
    · exact fun c hc => List.mem_takeWhile_imp hc
  · rintro ⟨sp1, cnt, sp2, tw, post, rfl, hsp1ne, hsp1, hcnt, hsp2ne, hsp2, htw, hnext⟩
    have hcntne : cnt ≠ [] := by
      rcases hcnt with ⟨hne, _⟩ | ⟨t, heq, _, _⟩ | ⟨t, heq, _, _⟩ | ⟨hne, _⟩
      · exact hne
      · rw [heq]
        simp
      · rw [heq]
        simp
      · exact hne
    have hcnthead : ∀ c, (cnt ++ (sp2 ++ (tw ++ post))).head? = some c →
        isSpaceChar c = false := by
      intro c hc
      cases cnt with
      | nil => exact absurd rfl hcntne
      | cons c0 ct =>
        simp only [List.cons_append, List.head?_cons, Option.some.injEq] at hc
        subst hc
        exact count_chars_not_space _ hcnt c0 (List.mem_cons_self c0 ct)
    have hs1 := span_exact isSpaceChar sp1 (cnt ++ (sp2 ++ (tw ++ post))) hsp1 hcnthead
    have hcntall : ∀ c ∈ cnt, (fun c => !isSpaceChar c) c = true := by
      intro c hc
      simp [count_chars_not_space cnt hcnt c hc]
    have hsp2head : ∀ c, (sp2 ++ (tw ++ post)).head? = some c →
        (fun c => !isSpaceChar c) c = false := by
      intro c hc
      cases sp2 with
      | nil => exact absurd rfl hsp2ne
      | cons c0 ct =>
        simp only [List.cons_append, List.head?_cons, Option.some.injEq] at hc
        subst hc
        simp [hsp2 c0 (List.mem_cons_self c0 ct)]
    have hs2 := span_exact (fun c => !isSpaceChar c) cnt (sp2 ++ (tw ++ post))
      hcntall hsp2head
    have hs3 := span_exact isSpaceChar sp2 (tw ++ post) hsp2
      (time_word_head tw post htw)
    simp only [repeatTail, Bool.and_eq_true, Bool.not_eq_true']
    rw [hs1.1, hs1.2, hs2.1, hs2.2, hs3.1, hs3.2]
    refine ⟨⟨⟨?_, (isCount_iff cnt).mpr hcnt⟩, ?_⟩,
      (isTimeTail_iff _).mpr ⟨tw, post, rfl, htw, hnext⟩⟩
    · cases sp1 with
      | nil => exact absurd rfl hsp1ne
      | cons a l2 => rfl
    · cases sp2 with
      | nil => exact absurd rfl hsp2ne
      | cons a l2 => rfl

theorem repeatSearch_iff (s : String) :
    repeatSearch s = true ↔ specRepeatPhrase s := by
  unfold repeatSearch specRepeatPhrase
  rw [searchFrom_iff]
  constructor
  · rintro ⟨pre, suf, heq, _, hm, hprev⟩
    rcases hd : dropCI "repeat".data suf with _ | rest
    · rw [hd] at hm
      cases hm
    · rw [hd] at hm
      obtain ⟨rpt, rfl, hrpt⟩ := dropCI_some _ _ _ hd
      obtain ⟨sp1, cnt, sp2, tw, post, hrest, hsp1ne, hsp1, hcnt, hsp2ne, hsp2,
        htw, hnext⟩ := (repeatTail_iff rest).mp hm
      refine ⟨pre, rpt, sp1, cnt, sp2, tw, post, ?_, hrpt.trans (by decide),
        hsp1ne, hsp1, hcnt, hsp2ne, hsp2, htw, hprev, hnext⟩
      rw [heq, hrest]
  · rintro ⟨pre, rpt, sp1, cnt, sp2, tw, post, heq, hrpt, hsp1ne, hsp1, hcnt,
      hsp2ne, hsp2, htw, hprev, hnext⟩
    refine ⟨pre, rpt ++ (sp1 ++ (cnt ++ (sp2 ++ (tw ++ post)))), ?_, ?_, ?_, hprev⟩
    · rw [heq]
    · intro h0
      have h1 : rpt = [] := (List.append_eq_nil.mp h0).1
      rw [h1] at hrpt
      exact absurd hrpt (by decide)
    · rw [dropCI_append "repeat".data rpt _ (hrpt.trans (by decide))]
      exact (repeatTail_iff _).mpr ⟨sp1, cnt, sp2, tw, post, rfl, hsp1ne, hsp1,
        hcnt, hsp2ne, hsp2, htw, hnext⟩

/-- Claim C3: the classifier reports the repeat block exactly when the
snippet contains, word-bounded and case-insensitively, the phrase
`repeat <count> time` or `repeat <count> times` where the count is a decimal
integer, a colon-prefixed identifier, a dollar-prefixed identifier, or a
dotted path expression; in particular `repeat 3 times` is reported and a
count-less `repeat times` is not. -/
theorem repeat_block_detection :
    (∀ script : String,
      "repeat" ∈ (analyze_script script).blocks ↔ specRepeatPhrase script)
    ∧ "repeat" ∈ (analyze_script "repeat 3 times").blocks
    ∧ "repeat" ∉ (analyze_script "repeat times").blocks := by
  refine ⟨?_, by decide, by decide⟩
  intro script
  constructor
  · intro h
    have h2 : "repeat" ∈ ((BLOCK_PATTERNS.filter (fun bp => bp.2 script)).map
        (fun bp => if bp.1 = "unless" then "if" else bp.1)).toFinset := h
    obtain ⟨bp, hbp, heq⟩ := List.mem_map.mp (List.mem_toFinset.mp h2)
    obtain ⟨hmem, hpred⟩ := List.mem_filter.mp hbp
    simp only [BLOCK_PATTERNS, List.mem_cons, List.not_mem_nil, or_false] at hmem
    rcases hmem with rfl | rfl | rfl | rfl | rfl | rfl | rfl
    · exact absurd heq (by decide)
    · exact absurd heq (by decide)
    · exact (repeatSearch_iff script).mp hpred
    · exact absurd heq (by decide)
    · exact absurd heq (by decide)
    · exact absurd heq (by decide)
    · exact absurd heq (by decide)
  · intro hspec
    have hps : repeatSearch script = true := (repeatSearch_iff script).mpr hspec
    show "repeat" ∈ ((BLOCK_PATTERNS.filter (fun bp => bp.2 script)).map
      (fun bp => if bp.1 = "unless" then "if" else bp.1)).toFinset
    refine List.mem_toFinset.mpr (List.mem_map.mpr
      ⟨("repeat", fun s => repeatSearch s), ?_, by decide⟩)
    exact List.mem_filter.mpr ⟨by simp [BLOCK_PATTERNS], hps⟩

/-- Witness for C3 at the phrase `repeat 3 times`, with the phrase shape
exhibited explicitly. -/
theorem repeat_block_detection_witness :
    "repeat" ∈ (analyze_script "repeat 3 times").blocks :=
  (repeat_block_detection.1 "repeat 3 times").mpr
    ⟨[], "repeat".data, [' '], ['3'], [' '], "times".data, [],
     by decide, by decide, by decide, by decide,
     Or.inl ⟨by decide, by decide⟩, by decide, by decide,
     Or.inr (by decide), Or.inl ⟨rfl, rfl⟩, Or.inl rfl⟩

end Hyperfixi

